import Mathlib

/-!
# doorman: a verification development

A shallow embedding of three pieces of the doorman authorization service and
the properties proved (or refuted) about them:

* `Main.sources` (`main.go`): the list of policy files read from the
  `POLICIES` environment variable;
* `Doorman.NewJWTValidator` (`doorman/jwt.go`): the per-issuer validator
  registry;
* `Utilities.Yaml2JSON` (`utilities/utilities.go`): the conversion of an
  unmarshalled YAML document into a value whose maps are keyed by strings.

The principal expansion of the `/allowed` handler is not part of the sources
at hand (only its test is); `Doorman.Expand` models it from the design
document.

Go strings are modelled by Lean strings, that is, by sequences of Unicode code
points: byte sequences that are not valid UTF-8 are outside the model.
-/

set_option autoImplicit false

/-! ## Definitions -/

namespace Main

/-- Go `unicode.IsSpace`: in Latin-1 the runes `\t`, `\n`, `\v`, `\f`, `\r`,
space, U+0085 and U+00A0; above it the runes with the White_Space property. -/
def IsSpace (r : Char) : Bool :=
  r = '\t' || r = '\n' || r.toNat = 0x0B || r.toNat = 0x0C || r = '\r' || r = ' '
    || r.toNat = 0x85 || r.toNat = 0xA0 || r.toNat = 0x1680
    || (0x2000 ≤ r.toNat && r.toNat ≤ 0x200A)
    || r.toNat = 0x2028 || r.toNat = 0x2029 || r.toNat = 0x202F || r.toNat = 0x205F
    || r.toNat = 0x3000

/-- The pieces of a rune sequence between consecutive occurrences of the
one-rune separator `sep`: one piece more than there are separators, so the
empty sequence has the single piece `[]`. -/
def splitRunes (sep : Char) : List Char → List (List Char)
  | [] => [[]]
  | c :: cs =>
    if c = sep then [] :: splitRunes sep cs
    else
      match splitRunes sep cs with
      | [] => [[c]]
      | p :: ps => (c :: p) :: ps

/-- Go `strings.Split(s, sep)` for a separator string of one rune, which is how
`sources` calls it (`strings.Split(env, " ")`). -/
def Split (s : String) (sep : Char) : List String :=
  (splitRunes sep s.data).map String.mk

/-- A rune sequence without its leading and trailing runes that satisfy
`unicode.IsSpace`. -/
def trimRunes (l : List Char) : List Char :=
  ((l.dropWhile IsSpace).reverse.dropWhile IsSpace).reverse

/-- Go `strings.TrimSpace`: the string without its leading and trailing
whitespace, as `unicode.IsSpace` defines it. -/
def TrimSpace (s : String) : String :=
  ⟨trimRunes s.data⟩

/-- The process environment: the value of each variable that is set. -/
abbrev Environ := String → Option String

/-- Go `os.Getenv`: the value of the variable, or the empty string when the
variable is not set. -/
def Getenv (environ : Environ) (key : String) : String :=
  match environ key with
  | some v => v
  | none => ""

/-- The constant `DefaultPoliciesFilename` of `main.go`. -/
def DefaultPoliciesFilename : String := "policies.yaml"

/-- The function `sources` of `main.go`. The `for ... range` loop over the
pieces is a left fold whose accumulator is the slice `r`, `nil` at the start
and grown by `append`. -/
def sources (environ : Environ) : List String :=
  let env := Getenv environ "POLICIES"
  let env := if env = "" then DefaultPoliciesFilename else env
  let sources := Split env ' '
  sources.foldl (fun r v =>
    let s := TrimSpace v
    if s ≠ "" then r ++ [s] else r) []

/-- The relation "`t` is `piece` with its leading and trailing whitespace
trimmed", stated without any trimming function: `piece` is `t` between a run
of whitespace before it and a run of whitespace after it, and `t` neither
begins nor ends with whitespace. -/
def IsTrimOf (piece t : List Char) : Prop :=
  ∃ pre post, piece = pre ++ t ++ post ∧
    (∀ c ∈ pre, IsSpace c = true) ∧ (∀ c ∈ post, IsSpace c = true) ∧
    (∀ c, t.head? = some c → IsSpace c = false) ∧
    (∀ c, t.getLast? = some c → IsSpace c = false)

/-- The tokenisation of a `POLICIES` value as the documentation words it,
written with library functions only (none of the definitions above that embed
the code): split the value at every space character, trim leading and
trailing whitespace from each piece, drop the pieces that are then empty, keep
the order. -/
def tokenise (env : String) : List String :=
  (((env.data.splitOn ' ').map
    (fun piece => (piece.dropWhile IsSpace).rdropWhile IsSpace)).filter
      (fun t => t ≠ [])).map String.mk

/-- An environment in which `POLICIES` has the given value and nothing else is
set. -/
def setPolicies (value : String) : Environ :=
  fun key => if key = "POLICIES" then some value else none

end Main

namespace Doorman

/-- The payload read from a token, `Claims` of `jwt.go`. -/
structure Claims where
  Subject : String
  Audience : List String
  Email : String
  Groups : List String
  deriving DecidableEq, Repr

/-- A value of the interface `JWTValidator`: a pointer to an `Auth0Validator`
(the only implementation `NewJWTValidator` builds). `addr` is the identity of
the allocated instance: two validators are the same instance exactly when they
are equal as records. -/
structure JWTValidator where
  Issuer : String
  addr : Nat
  deriving DecidableEq, Repr

/-- A Go `error` value that is not nil. -/
abbrev Error := String

/-- The state `NewJWTValidator` works on: the package variable
`jwtValidators` (a map, as an association list), the allocator (the address
the next `&Auth0Validator{...}` gets) and the trace of the receivers on which
`Initialize` has been run, oldest first. -/
structure State where
  jwtValidators : List (String × JWTValidator)
  nextAddr : Nat
  initCalls : List JWTValidator
  deriving DecidableEq, Repr

/-- The package `init` function: `jwtValidators = map[string]JWTValidator{}`. -/
def init : State :=
  { jwtValidators := [], nextAddr := 0, initCalls := [] }

/-- The map read `v, ok := m[key]`; `none` is `ok == false`. -/
def lookup (m : List (String × JWTValidator)) (key : String) : Option JWTValidator :=
  match m with
  | [] => none
  | (k, v) :: rest => if k = key then some v else lookup rest key

/-- The function `NewJWTValidator` of `jwt.go`. `Initialize` is the method of
`Auth0Validator` (it fetches the signing keys over the network and is not part
of the sources at hand): a parameter giving the error it returns on a
receiver, `none` for a nil error. The result pairs the returned
`(JWTValidator, error)`, `none` for nil, with the state after the call. -/
def NewJWTValidator (Initialize : JWTValidator → Option Error) (issuer : String)
    (st : State) : (Option JWTValidator × Option Error) × State :=
  match lookup st.jwtValidators issuer with
  | some v => ((some v, none), st)
  | none =>
    let v : JWTValidator := { Issuer := issuer, addr := st.nextAddr }
    let st := { st with nextAddr := st.nextAddr + 1 }
    let err := Initialize v
    let st := { st with initCalls := st.initCalls ++ [v] }
    match err with
    | some e => ((none, some e), st)
    | none => ((some v, none), st)

/-- The number of times `Initialize` has been run on a validator of the given
issuer. -/
def initCount (st : State) (issuer : String) : Nat :=
  (st.initCalls.filter (fun v => v.Issuer = issuer)).length

/-- Modelled from the spec: a principal set in the order it is returned to the
caller (the type `Principals` of the handler test; its declaration is not in
the sources at hand). -/
abbrev Principals := List String

/-- Modelled from the spec: a value of the free-form request context, either a
sequence of strings or anything else. -/
inductive ContextValue where
  | strings (xs : List String)
  | other
  deriving DecidableEq, Repr

/-- Modelled from the spec: the free-form key/value request context (the type
`Context` of the handler test; its declaration is not in the sources at
hand). -/
abbrev Context := List (String × ContextValue)

/-- Modelled from the spec: the entry of a context under a key, if any. -/
def Context.get (context : Context) (key : String) : Option ContextValue :=
  match context with
  | [] => none
  | (k, v) :: rest => if k = key then some v else Context.get rest key

/-- Modelled from the spec: the failure `InvalidContext` of the expansion. -/
inductive ExpandError where
  | InvalidContext
  deriving DecidableEq, Repr

/-- Modelled from the spec: the deduplicating append of the Principal Expander
(the handler and the expansion code are not in the sources at hand), "a
principal already present is not appended twice". -/
def appendPrincipal (ps : Principals) (p : String) : Principals :=
  if p ∈ ps then ps else ps ++ [p]

/-- A list of principals without its repetitions: every principal is kept at
the place of its first occurrence, the later occurrences are left out. -/
def firstOccurrences : List String → List String
  | [] => []
  | p :: ps => p :: (firstOccurrences ps).filter (fun q => q ≠ p)

/-- Modelled from the spec: the Principal Expander `Expand(basePrincipals,
claims, context)`, whose code (the `/allowed` handler and what it calls) is not
in the sources at hand. The rules are applied in the order the design gives
them: start from the base principals; append `tag:<group>` for every group of
the claims; append `role:<role>` for every role under the `roles` key of the
context; a principal already present is not appended; the expansion fails with
`InvalidContext` when the `roles` entry exists and is not a sequence of
strings. -/
def Expand (basePrincipals : Principals) (claims : Option Claims) (context : Context) :
    Except ExpandError Principals :=
  let groups := match claims with
    | some c => c.Groups
    | none => []
  let tagged := groups.foldl (fun ps g => appendPrincipal ps ("tag:" ++ g)) basePrincipals
  match context.get "roles" with
  | none => .ok tagged
  | some (.strings roles) =>
    .ok (roles.foldl (fun ps r => appendPrincipal ps ("role:" ++ r)) tagged)
  | some .other => .error .InvalidContext

end Doorman

namespace Utilities

/-- The scalars `yaml.Unmarshal` puts into an `interface{}`: nil, booleans,
integers, floating-point numbers (by their bits, never computed with) and
strings. They are also the values a key of a `map[interface{}]interface{}`
can have. -/
inductive Scalar where
  | null
  | bool (b : Bool)
  | int (n : Int)
  | float (bits : Nat)
  | str (s : String)
  deriving DecidableEq, Repr

/-- The dynamic values `Yaml2JSON` inspects and builds: scalars,
`[]interface{}`, `map[interface{}]interface{}` and `map[string]interface{}`.
A map is the list of its entries, in the order `range` visits them. -/
inductive Value where
  | scalar (s : Scalar)
  | slice (xs : List Value)
  | mapIface (kvs : List (Scalar × Value))
  | mapString (kvs : List (String × Value))
  deriving Repr

/-- The map write `m[k] = v` on a `map[string]interface{}`: the entry of an
existing key is overwritten, a new key gets a new entry. -/
def mapSet (m : List (String × Value)) (k : String) (v : Value) : List (String × Value) :=
  match m with
  | [] => [(k, v)]
  | (k', v') :: rest => if k' = k then (k, v) :: rest else (k', v') :: mapSet rest k v

/-- The type assertion `k.(string)`: `none` is the run-time panic of an
assertion without the `ok` result. -/
def assertString : Scalar → Option String
  | .str s => some s
  | _ => none

mutual
/-- The function `Yaml2JSON` of `utilities.go`; `none` is a run-time panic.
The source overwrites the elements of a `[]interface{}` in place and returns
the same slice; the model returns the slice of the converted elements. -/
def Yaml2JSON : Value → Option Value
  | .mapIface x => (Yaml2JSON.rangeMap x []).map Value.mapString
  | .slice x => (Yaml2JSON.rangeSlice x).map Value.slice
  | i => some i
/-- The loop `for k, v := range x { m2[k.(string)] = Yaml2JSON(v) }` on the
entries still to visit, with the current `m2`. -/
def Yaml2JSON.rangeMap :
    List (Scalar × Value) → List (String × Value) → Option (List (String × Value))
  | [], m2 => some m2
  | (k, v) :: rest, m2 =>
    match assertString k, Yaml2JSON v with
    | some s, some v2 => Yaml2JSON.rangeMap rest (mapSet m2 s v2)
    | _, _ => none
/-- The loop `for i, v := range x { x[i] = Yaml2JSON(v) }` on the elements
still to visit. -/
def Yaml2JSON.rangeSlice : List Value → Option (List Value)
  | [] => some []
  | v :: rest =>
    match Yaml2JSON v, Yaml2JSON.rangeSlice rest with
    | some v2, some rest2 => some (v2 :: rest2)
    | _, _ => none
end

mutual
/-- A value as `yaml.Unmarshal` builds it into an `interface{}`: made of
scalars, `[]interface{}` and `map[interface{}]interface{}` only. -/
def isYAML : Value → Bool
  | .scalar _ => true
  | .slice xs => isYAML.all xs
  | .mapIface kvs => isYAML.entries kvs
  | .mapString _ => false
/-- Every element of the list satisfies `isYAML`. -/
def isYAML.all : List Value → Bool
  | [] => true
  | v :: rest => isYAML v && isYAML.all rest
/-- Every value of the entries satisfies `isYAML`. -/
def isYAML.entries : List (Scalar × Value) → Bool
  | [] => true
  | (_, v) :: rest => isYAML v && isYAML.entries rest
end

/-- A scalar that is a string. -/
def Scalar.isStr : Scalar → Bool
  | .str _ => true
  | _ => false

mutual
/-- Every key of every `map[interface{}]interface{}` reachable through
sequences and such maps is a string. -/
def keysAreStrings : Value → Bool
  | .scalar _ => true
  | .slice xs => keysAreStrings.all xs
  | .mapIface kvs => keysAreStrings.entries kvs
  | .mapString _ => true
/-- Every element of the list satisfies `keysAreStrings`. -/
def keysAreStrings.all : List Value → Bool
  | [] => true
  | v :: rest => keysAreStrings v && keysAreStrings.all rest
/-- Every key of the entries is a string and every value satisfies
`keysAreStrings`. -/
def keysAreStrings.entries : List (Scalar × Value) → Bool
  | [] => true
  | (k, v) :: rest => k.isStr && keysAreStrings v && keysAreStrings.entries rest
end

mutual
/-- No `map[interface{}]interface{}` occurs in the value, at any depth: every
map reachable through sequences and maps is a `map[string]interface{}`. -/
def noIfaceMap : Value → Bool
  | .scalar _ => true
  | .slice xs => noIfaceMap.all xs
  | .mapIface _ => false
  | .mapString kvs => noIfaceMap.fields kvs
/-- Every element of the list satisfies `noIfaceMap`. -/
def noIfaceMap.all : List Value → Bool
  | [] => true
  | v :: rest => noIfaceMap v && noIfaceMap.all rest
/-- Every value of the entries satisfies `noIfaceMap`. -/
def noIfaceMap.fields : List (String × Value) → Bool
  | [] => true
  | (_, v) :: rest => noIfaceMap v && noIfaceMap.fields rest
end

mutual
/-- The keys of every `map[interface{}]interface{}` in the value are pairwise
distinct, as the keys of a Go map are. -/
def distinctKeys : Value → Bool
  | .scalar _ => true
  | .slice xs => distinctKeys.all xs
  | .mapIface kvs => decide (kvs.map Prod.fst).Nodup && distinctKeys.entries kvs
  | .mapString _ => true
/-- Every element of the list satisfies `distinctKeys`. -/
def distinctKeys.all : List Value → Bool
  | [] => true
  | v :: rest => distinctKeys v && distinctKeys.all rest
/-- Every value of the entries satisfies `distinctKeys`. -/
def distinctKeys.entries : List (Scalar × Value) → Bool
  | [] => true
  | (_, v) :: rest => distinctKeys v && distinctKeys.entries rest
end

/-- A scalar other than a NaN or an infinity. The bits of a float are those of
an IEEE 754 binary64: the number is finite when the eleven exponent bits are
not all ones. -/
def Scalar.isFinite : Scalar → Bool
  | .float bits => (bits / 2 ^ 52) % 2048 != 2047
  | _ => true

mutual
/-- Go `json.Marshal` accepts the value, which is what `c.JSON` in
`YAMLAsJSONHandler` needs: it refuses a `map[interface{}]interface{}`
(`UnsupportedTypeError`) and a floating-point NaN or infinity
(`UnsupportedValueError`), at any depth. -/
def jsonEncodable : Value → Bool
  | .scalar s => s.isFinite
  | .slice xs => jsonEncodable.all xs
  | .mapIface _ => false
  | .mapString kvs => jsonEncodable.fields kvs
/-- Every element of the list satisfies `jsonEncodable`. -/
def jsonEncodable.all : List Value → Bool
  | [] => true
  | v :: rest => jsonEncodable v && jsonEncodable.all rest
/-- Every value of the entries satisfies `jsonEncodable`. -/
def jsonEncodable.fields : List (String × Value) → Bool
  | [] => true
  | (_, v) :: rest => jsonEncodable v && jsonEncodable.fields rest
end

mutual
/-- No floating-point scalar of the value, at any depth, is a NaN or an
infinity. -/
def finiteFloats : Value → Bool
  | .scalar s => s.isFinite
  | .slice xs => finiteFloats.all xs
  | .mapIface kvs => finiteFloats.entries kvs
  | .mapString kvs => finiteFloats.fields kvs
/-- Every element of the list satisfies `finiteFloats`. -/
def finiteFloats.all : List Value → Bool
  | [] => true
  | v :: rest => finiteFloats v && finiteFloats.all rest
/-- Every value of the entries satisfies `finiteFloats`. -/
def finiteFloats.entries : List (Scalar × Value) → Bool
  | [] => true
  | (_, v) :: rest => finiteFloats v && finiteFloats.entries rest
/-- Every value of the entries satisfies `finiteFloats`. -/
def finiteFloats.fields : List (String × Value) → Bool
  | [] => true
  | (_, v) :: rest => finiteFloats v && finiteFloats.fields rest
end

/-- The document `a: .inf` as `yaml.Unmarshal` builds it: the value of `a` is
the float64 positive infinity, bits `0x7FF0000000000000`. -/
def infinityDocument : Value :=
  .mapIface [(.str "a", .scalar (.float 0x7FF0000000000000))]

/-- The document `a: [{b: 1}]` as `yaml.Unmarshal` builds it. -/
def sampleDocument : Value :=
  .mapIface [(.str "a", .slice [.mapIface [(.str "b", .scalar (.int 1))]])]

/-- An entry of a `map[interface{}]interface{}` and the entry of the converted
`map[string]interface{}` that comes from it: the key is the same string and
the value is the conversion of the value. -/
def entryConverted (kv : Scalar × Value) (sv : String × Value) : Prop :=
  kv.1 = Scalar.str sv.1 ∧ Yaml2JSON kv.2 = some sv.2

end Utilities

/-! ## Theorems -/

namespace Main

/-! ### Splitting and trimming -/

theorem splitRunes_eq_splitOn (sep : Char) (l : List Char) :
    splitRunes sep l = l.splitOn sep := by
  induction l with
  | nil => simp [splitRunes]
  | cons c cs ih =>
    rw [splitRunes, ih]
    unfold List.splitOn
    rw [List.splitOnP_cons]
    by_cases h : c = sep
    · simp [h]
    · simp only [h, if_false, beq_iff_eq]
      cases hs : List.splitOnP (fun x => x == sep) cs with
      | nil => exact absurd hs (List.splitOnP_ne_nil _ _)
      | cons p ps => simp [List.modifyHead]

theorem splitRunes_ne_nil (sep : Char) (l : List Char) : splitRunes sep l ≠ [] := by
  cases l with
  | nil => simp [splitRunes]
  | cons c cs =>
    rw [splitRunes]
    split
    · simp
    · split <;> simp

theorem mem_splitRunes_iff (sep c : Char) (l : List Char) (hc : c ≠ sep) :
    (∃ p ∈ splitRunes sep l, c ∈ p) ↔ c ∈ l := by
  induction l with
  | nil => simp [splitRunes]
  | cons d ds ih =>
    rw [splitRunes]
    by_cases h : d = sep
    · subst h
      simp only [if_true, List.mem_cons, exists_eq_or_imp, List.not_mem_nil, false_or, ih]
      constructor
      · intro h; exact Or.inr h
      · rintro (h | h)
        · exact absurd h hc
        · exact h
    · simp only [h, if_false]
      cases hs : splitRunes sep ds with
      | nil => exact absurd hs (splitRunes_ne_nil _ _)
      | cons p ps =>
        rw [hs] at ih
        simp only [List.mem_cons, exists_eq_or_imp] at ih ⊢
        rw [← ih]
        tauto

theorem not_mem_of_mem_splitRunes (sep : Char) (l : List Char) :
    ∀ p ∈ splitRunes sep l, sep ∉ p := by
  induction l with
  | nil => simp [splitRunes]
  | cons d ds ih =>
    rw [splitRunes]
    by_cases h : d = sep
    · simp only [h, if_true, List.mem_cons]
      rintro p (rfl | hp)
      · simp
      · exact ih p hp
    · simp only [h, if_false]
      cases hs : splitRunes sep ds with
      | nil => exact absurd hs (splitRunes_ne_nil _ _)
      | cons p ps =>
        rw [hs] at ih
        simp only [List.mem_cons] at ih ⊢
        rintro q (rfl | hq)
        · intro hmem
          rcases List.mem_cons.1 hmem with e | e
          · exact h e.symm
          · exact ih p (Or.inl rfl) e
        · exact ih q (Or.inr hq)

theorem TrimSpace_data (s : String) : (TrimSpace s).data = trimRunes s.data := rfl

theorem trimRunes_eq (l : List Char) :
    trimRunes l = (l.dropWhile IsSpace).rdropWhile IsSpace := rfl

theorem trimRunes_sublist (l : List Char) : (trimRunes l).Sublist l := by
  rw [trimRunes_eq]
  exact ((List.rdropWhile_prefix _ _).sublist).trans (List.dropWhile_suffix _).sublist

theorem exists_not_dropWhile (p : Char → Bool) (l : List Char) :
    (∃ c ∈ l.dropWhile p, p c = false) ↔ ∃ c ∈ l, p c = false := by
  constructor
  · rintro ⟨c, hc, hp⟩
    exact ⟨c, List.dropWhile_subset p hc, hp⟩
  · rintro ⟨c, hc, hp⟩
    induction l with
    | nil => simp at hc
    | cons d ds ih =>
      by_cases hd : p d = true
      · rw [List.dropWhile_cons_of_pos hd]
        rcases List.mem_cons.1 hc with e | e
        · rw [e, hd] at hp; exact absurd hp (by simp)
        · exact ih e
      · rw [List.dropWhile_cons_of_neg hd]
        exact ⟨d, List.mem_cons_self _ _, by simpa using hd⟩

theorem trimRunes_ne_nil_iff (l : List Char) :
    trimRunes l ≠ [] ↔ ∃ c ∈ l, IsSpace c = false := by
  rw [trimRunes_eq, Ne, List.rdropWhile_eq_nil_iff, ← exists_not_dropWhile]
  simp

theorem trimRunes_head (l : List Char) (c : Char) (h : (trimRunes l).head? = some c) :
    IsSpace c = false := by
  rw [trimRunes_eq] at h
  have hpre : (l.dropWhile IsSpace).rdropWhile IsSpace <+: l.dropWhile IsSpace :=
    List.rdropWhile_prefix _ _
  rcases hpre with ⟨t, ht⟩
  have hhead : (l.dropWhile IsSpace).head? = some c := by
    rw [← ht]
    cases hr : (l.dropWhile IsSpace).rdropWhile IsSpace with
    | nil => rw [hr] at h; simp at h
    | cons a as => rw [hr] at h; simpa using h
  have := List.head?_dropWhile_not IsSpace l
  rw [hhead] at this
  simpa using this

theorem trimRunes_getLast (l : List Char) (c : Char) (h : (trimRunes l).getLast? = some c) :
    IsSpace c = false := by
  rw [trimRunes_eq] at h
  have hne : (l.dropWhile IsSpace).rdropWhile IsSpace ≠ [] := by
    intro e; rw [e] at h; simp at h
  have := List.rdropWhile_last_not IsSpace (l.dropWhile IsSpace) hne
  rw [List.getLast?_eq_getLast _ hne] at h
  have e : ((l.dropWhile IsSpace).rdropWhile IsSpace).getLast hne = c := by simpa using h
  rw [e] at this
  simpa using this

/-! ### The loop of `sources` -/

theorem loop_eq (l : List String) (acc : List String) :
    l.foldl (fun r v => if TrimSpace v ≠ "" then r ++ [TrimSpace v] else r) acc
      = acc ++ (l.map TrimSpace).filter (fun s => s ≠ "") := by
  induction l generalizing acc with
  | nil => simp
  | cons v vs ih =>
    rw [List.foldl_cons, ih]
    by_cases h : TrimSpace v = "" <;> simp [h]


theorem sources_eq_filter (environ : Environ) :
    sources environ =
      ((Split (if Getenv environ "POLICIES" = "" then DefaultPoliciesFilename
          else Getenv environ "POLICIES") ' ').map TrimSpace).filter (fun s => s ≠ "") := by
  unfold sources
  exact (loop_eq _ _).trans (List.nil_append _)

theorem String_ne_empty_iff (s : String) : s ≠ "" ↔ s.data ≠ [] := by
  rw [Ne, String.ext_iff]

theorem mem_sources_iff (environ : Environ) (h : Getenv environ "POLICIES" ≠ "") (p : String) :
    p ∈ sources environ ↔
      p ≠ "" ∧ ∃ piece ∈ splitRunes ' ' (Getenv environ "POLICIES").data,
        p.data = trimRunes piece := by
  rw [sources_eq_filter, if_neg h]
  simp only [Split, List.mem_filter, List.mem_map, decide_eq_true_eq, exists_exists_and_eq_and]
  constructor
  · rintro ⟨⟨piece, hp, rfl⟩, hne⟩
    exact ⟨hne, piece, hp, rfl⟩
  · rintro ⟨hne, piece, hp, hd⟩
    refine ⟨⟨piece, hp, ?_⟩, hne⟩
    apply String.ext
    rw [TrimSpace_data, hd]

theorem rdropWhile_split (p : Char → Bool) (m : List Char) :
    ∃ post, m = m.rdropWhile p ++ post ∧ ∀ c ∈ post, p c = true := by
  induction m using List.reverseRecOn with
  | nil => exact ⟨[], by simp⟩
  | append_singleton l x ih =>
    by_cases hx : p x = true
    · rcases ih with ⟨post, hl, hpost⟩
      refine ⟨post ++ [x], ?_, ?_⟩
      · rw [List.rdropWhile_concat_pos _ _ _ hx, ← List.append_assoc, ← hl]
      · intro c hc
        rcases List.mem_append.1 hc with h | h
        · exact hpost c h
        · rw [List.mem_singleton.1 h]; exact hx
    · exact ⟨[], by rw [List.rdropWhile_concat_neg _ _ _ hx]; simp, by simp⟩

theorem rdropWhile_append_of_pos (p : Char → Bool) (t post : List Char)
    (h : ∀ c ∈ post, p c = true) : (t ++ post).rdropWhile p = t.rdropWhile p := by
  unfold List.rdropWhile
  rw [List.reverse_append, List.dropWhile_append_of_pos]
  intro a ha
  exact h a (List.mem_reverse.1 ha)

/-- The code's trimming satisfies the relation `IsTrimOf`. -/
theorem IsTrimOf_trimRunes (piece : List Char) : IsTrimOf piece (trimRunes piece) := by
  rcases rdropWhile_split IsSpace (piece.dropWhile IsSpace) with ⟨post, hm, hpost⟩
  refine ⟨piece.takeWhile IsSpace, post, ?_, ?_, hpost, trimRunes_head piece,
    trimRunes_getLast piece⟩
  · rw [trimRunes_eq, List.append_assoc, ← hm, List.takeWhile_append_dropWhile]
  · intro c hc
    exact List.mem_takeWhile_imp hc

/-- The relation `IsTrimOf` determines the trimmed sequence. -/
theorem IsTrimOf_unique (piece t : List Char) (h : IsTrimOf piece t) : t = trimRunes piece := by
  rcases h with ⟨pre, post, rfl, hpre, hpost, hhead, hlast⟩
  rw [trimRunes_eq, List.append_assoc, List.dropWhile_append_of_pos hpre]
  cases t with
  | nil =>
    rw [List.nil_append, (List.dropWhile_eq_nil_iff).2 hpost]
    rfl
  | cons c t1 =>
    have hc : ¬ IsSpace c = true := by
      rw [hhead c rfl]; simp
    rw [List.cons_append, List.dropWhile_cons_of_neg hc, ← List.cons_append,
      rdropWhile_append_of_pos _ _ _ hpost]
    symm
    rw [List.rdropWhile_eq_self_iff]
    intro hl
    have := hlast _ (List.getLast?_eq_getLast _ hl)
    rw [this]; simp

theorem pieces_forall₂ (pieces : List (List Char)) :
    List.Forall₂ (fun piece path => IsTrimOf piece path.data)
      (pieces.filter (fun piece => piece.any (fun c => !IsSpace c)))
      (((pieces.map String.mk).map TrimSpace).filter (fun s => s ≠ "")) := by
  induction pieces with
  | nil => exact List.Forall₂.nil
  | cons piece rest ih =>
    have hiff : (piece.any (fun c => !IsSpace c) = true) ↔ TrimSpace ⟨piece⟩ ≠ "" := by
      rw [String_ne_empty_iff, TrimSpace_data, trimRunes_ne_nil_iff]
      simp
    by_cases hp : piece.any (fun c => !IsSpace c) = true
    · have hne := hiff.1 hp
      simp only [List.map_cons]
      rw [List.filter_cons_of_pos (p := fun piece : List Char => piece.any (fun c => !IsSpace c)) hp,
        List.filter_cons_of_pos (by simpa using hne)]
      exact List.Forall₂.cons (IsTrimOf_trimRunes piece) ih
    · have hne : ¬ TrimSpace ⟨piece⟩ ≠ "" := fun h => hp (hiff.2 h)
      simp only [List.map_cons]
      rw [List.filter_cons_of_neg (p := fun piece : List Char => piece.any (fun c => !IsSpace c)) hp,
        List.filter_cons_of_neg (by simpa using hne)]
      exact ih

/-- C9: for a non-empty `POLICIES` value, `sources` is the tokenisation of
the value: split at every space, trim leading and trailing whitespace from
each piece, drop the pieces that are then empty, keep the order. The returned
paths are, one for one and in order, the trimmed forms of the pieces that hold
a rune other than whitespace; no returned path is empty, contains a space
character, or begins or ends with whitespace. -/
theorem sources_tokenises (environ : Environ) (h : Getenv environ "POLICIES" ≠ "") :
    sources environ = tokenise (Getenv environ "POLICIES") ∧
      List.Forall₂ (fun piece path => IsTrimOf piece path.data)
        (((Getenv environ "POLICIES").data.splitOn ' ').filter
          (fun piece => piece.any (fun c => !IsSpace c)))
        (sources environ) ∧
      ∀ p ∈ sources environ, p ≠ "" ∧ ' ' ∉ p.data ∧
        (∀ c, p.data.head? = some c → IsSpace c = false) ∧
        (∀ c, p.data.getLast? = some c → IsSpace c = false) := by
  refine ⟨?_, ?_, ?_⟩
  · rw [sources_eq_filter, if_neg h]
    simp only [Split, tokenise, splitRunes_eq_splitOn]
    generalize (Getenv environ "POLICIES").data.splitOn ' ' = pieces
    induction pieces with
    | nil => rfl
    | cons piece rest ih =>
      simp only [List.map_cons]
      by_cases hp : trimRunes piece = []
      · have h1 : ¬ TrimSpace ⟨piece⟩ ≠ "" := by
          rw [String_ne_empty_iff, TrimSpace_data]; simpa using hp
        rw [List.filter_cons_of_neg (by simpa using h1),
          List.filter_cons_of_neg (by simpa [← trimRunes_eq] using hp)]
        exact ih
      · have h1 : TrimSpace ⟨piece⟩ ≠ "" := by
          rw [String_ne_empty_iff, TrimSpace_data]; exact hp
        rw [List.filter_cons_of_pos (by simpa using h1),
          List.filter_cons_of_pos (by simpa [← trimRunes_eq] using hp), List.map_cons, ih]
        rfl
  · rw [sources_eq_filter, if_neg h]
    simp only [Split, splitRunes_eq_splitOn]
    exact pieces_forall₂ _
  · intro p hp
    rcases (mem_sources_iff environ h p).1 hp with ⟨hne, piece, hpiece, hd⟩
    refine ⟨hne, ?_, ?_, ?_⟩
    · intro hmem
      rw [hd] at hmem
      exact not_mem_of_mem_splitRunes ' ' _ piece hpiece ((trimRunes_sublist piece).subset hmem)
    · intro c hc
      rw [hd] at hc
      exact trimRunes_head piece c hc
    · intro c hc
      rw [hd] at hc
      exact trimRunes_getLast piece c hc

/-- Witness of `sources_tokenises`: `POLICIES` set to `" a.yaml \t b.yaml c\td "`,
for which `sources` returns `a.yaml`, `b.yaml` and `c\td`. -/
theorem sources_tokenises_witness :
    Getenv (setPolicies " a.yaml \t b.yaml c\td ") "POLICIES" ≠ "" ∧
      sources (setPolicies " a.yaml \t b.yaml c\td ") = ["a.yaml", "b.yaml", "c\td"] ∧
      tokenise " a.yaml \t b.yaml c\td " = ["a.yaml", "b.yaml", "c\td"] ∧
      (sources (setPolicies " a.yaml \t b.yaml c\td ")
          = tokenise (Getenv (setPolicies " a.yaml \t b.yaml c\td ") "POLICIES") ∧
        List.Forall₂ (fun piece path => IsTrimOf piece path.data)
          (((Getenv (setPolicies " a.yaml \t b.yaml c\td ") "POLICIES").data.splitOn ' ').filter
            (fun piece => piece.any (fun c => !IsSpace c)))
          (sources (setPolicies " a.yaml \t b.yaml c\td ")) ∧
        ∀ p ∈ sources (setPolicies " a.yaml \t b.yaml c\td "), p ≠ "" ∧ ' ' ∉ p.data ∧
          (∀ c, p.data.head? = some c → IsSpace c = false) ∧
          (∀ c, p.data.getLast? = some c → IsSpace c = false)) :=
  ⟨by decide, by decide, by decide,
    sources_tokenises (setPolicies " a.yaml \t b.yaml c\td ") (by decide)⟩

/-- C6, amended: `sources` returns at least one path exactly when `POLICIES`
is unset or empty (the default applies) or its value has a rune that is not
whitespace; for a value made of whitespace only it returns no path. -/
theorem sources_nonempty_iff (environ : Environ) :
    sources environ ≠ [] ↔
      (Getenv environ "POLICIES" = "" ∨
        ∃ c ∈ (Getenv environ "POLICIES").data, IsSpace c = false) := by
  by_cases h : Getenv environ "POLICIES" = ""
  · simp only [h, true_or, iff_true]
    have : sources environ = ["policies.yaml"] := by
      unfold sources
      rw [h]
      decide
    rw [this]
    simp
  · simp only [h, false_or]
    constructor
    · intro hne
      rcases List.exists_mem_of_ne_nil _ hne with ⟨p, hp⟩
      rcases (mem_sources_iff environ h p).1 hp with ⟨hne, piece, hpiece, hd⟩
      rw [String_ne_empty_iff, hd, trimRunes_ne_nil_iff] at hne
      rcases hne with ⟨c, hc, hs⟩
      have hsp : c ≠ ' ' := by
        rintro rfl
        exact absurd hs (by decide)
      exact ⟨c, (mem_splitRunes_iff ' ' c _ hsp).1 ⟨piece, hpiece, hc⟩, hs⟩
    · rintro ⟨c, hc, hs⟩
      have hsp : c ≠ ' ' := by
        rintro rfl
        exact absurd hs (by decide)
      rcases (mem_splitRunes_iff ' ' c _ hsp).2 hc with ⟨piece, hpiece, hcp⟩
      have hmem : (⟨trimRunes piece⟩ : String) ∈ sources environ := by
        refine (mem_sources_iff environ h _).2 ⟨?_, piece, hpiece, rfl⟩
        rw [String_ne_empty_iff]
        exact (trimRunes_ne_nil_iff piece).2 ⟨c, hcp, hs⟩
      exact List.ne_nil_of_mem hmem

/-- C5: when `POLICIES` is unset or set to the empty string, `sources` returns
exactly the one-element list `["policies.yaml"]`. -/
theorem sources_default (environ : Environ)
    (h : environ "POLICIES" = none ∨ environ "POLICIES" = some "") :
    sources environ = ["policies.yaml"] := by
  have hg : Getenv environ "POLICIES" = "" := by
    rcases h with h | h <;> simp [Getenv, h]
  unfold sources
  rw [hg]
  decide

/-- Witness of `sources_default`: the environment in which nothing is set. -/
theorem sources_default_witness :
    ((fun _ => none : Environ) "POLICIES" = none ∨ (fun _ => none : Environ) "POLICIES" = some "")
      ∧ sources (fun _ => none) = ["policies.yaml"] :=
  ⟨Or.inl rfl, sources_default (fun _ => none) (Or.inl rfl)⟩

/-- C6, as stated, fails: when `POLICIES` is a single space, `sources` returns
the empty list. -/
theorem sources_blank_is_empty : (sources (setPolicies " ")).length = 0 := by
  decide

end Main

namespace Doorman

/-! ### The validator registry -/

theorem NewJWTValidator_registry_unchanged (Initialize : JWTValidator → Option Error)
    (issuer : String) (st : State) :
    (NewJWTValidator Initialize issuer st).2.jwtValidators = st.jwtValidators := by
  unfold NewJWTValidator
  cases lookup st.jwtValidators issuer with
  | some v => rfl
  | none =>
    simp only []
    cases Initialize { Issuer := issuer, addr := st.nextAddr } <;> rfl

theorem NewJWTValidator_from_init_twice (Initialize : JWTValidator → Option Error)
    (issuer : String) :
    initCount (NewJWTValidator Initialize issuer
      (NewJWTValidator Initialize issuer init).2).2 issuer = 2 := by
  have h1 : lookup (NewJWTValidator Initialize issuer init).2.jwtValidators issuer = none := by
    rw [NewJWTValidator_registry_unchanged]
    rfl
  have h2 : (NewJWTValidator Initialize issuer init).2.initCalls = [⟨issuer, 0⟩] := by
    unfold NewJWTValidator
    simp only [init, lookup]
    cases Initialize ⟨issuer, 0⟩ <;> rfl
  generalize NewJWTValidator Initialize issuer init = r at h1 h2
  unfold NewJWTValidator
  rw [h1]
  simp only [initCount]
  cases Initialize ⟨issuer, r.2.nextAddr⟩ <;> simp [h2]

/-- C1, evaluated on the code: from the empty registry, with an `Initialize`
that succeeds, two calls for the same issuer. The first call succeeds and
leaves the registry without an entry for the issuer; the second call builds
another instance and runs `Initialize` a second time. -/
theorem NewJWTValidator_runs_Initialize_twice :
    (NewJWTValidator (fun _ => none) "https://auth.mozilla.auth0.com/" init).1
        = (some ⟨"https://auth.mozilla.auth0.com/", 0⟩, none) ∧
      lookup (NewJWTValidator (fun _ => none) "https://auth.mozilla.auth0.com/" init).2.jwtValidators
          "https://auth.mozilla.auth0.com/" = none ∧
      (NewJWTValidator (fun _ => none) "https://auth.mozilla.auth0.com/"
          (NewJWTValidator (fun _ => none) "https://auth.mozilla.auth0.com/" init).2).1
        = (some ⟨"https://auth.mozilla.auth0.com/", 1⟩, none) ∧
      initCount (NewJWTValidator (fun _ => none) "https://auth.mozilla.auth0.com/"
          (NewJWTValidator (fun _ => none) "https://auth.mozilla.auth0.com/" init).2).2
        "https://auth.mozilla.auth0.com/" = 2 := by
  decide

/-- C2: for an issuer that is not in `jwtValidators`, if `Initialize` of the
freshly built validator returns an error `e`, `NewJWTValidator` returns a nil
validator and exactly `e`; if it returns no error, `NewJWTValidator` returns
the (non-nil) validator and a nil error; so the call fails exactly when
`Initialize` fails. -/
theorem NewJWTValidator_propagates (Initialize : JWTValidator → Option Error)
    (issuer : String) (st : State) (h : lookup st.jwtValidators issuer = none) :
    (∀ e, Initialize ⟨issuer, st.nextAddr⟩ = some e →
        (NewJWTValidator Initialize issuer st).1 = (none, some e)) ∧
      (Initialize ⟨issuer, st.nextAddr⟩ = none →
        (NewJWTValidator Initialize issuer st).1 = (some ⟨issuer, st.nextAddr⟩, none)) ∧
      ((NewJWTValidator Initialize issuer st).1.2.isSome
        = (Initialize ⟨issuer, st.nextAddr⟩).isSome) ∧
      ((NewJWTValidator Initialize issuer st).1.1.isSome
        = (Initialize ⟨issuer, st.nextAddr⟩).isNone) := by
  unfold NewJWTValidator
  rw [h]
  cases hI : Initialize ⟨issuer, st.nextAddr⟩ <;> simp [hI]

/-- Witness of `NewJWTValidator_propagates`: the empty registry and an
`Initialize` that fails. -/
theorem NewJWTValidator_propagates_witness :
    lookup init.jwtValidators "https://auth.mozilla.auth0.com/" = none ∧
      ((∀ e, (fun _ => some "fetch failed" : JWTValidator → Option Error)
            ⟨"https://auth.mozilla.auth0.com/", init.nextAddr⟩ = some e →
          (NewJWTValidator (fun _ => some "fetch failed")
            "https://auth.mozilla.auth0.com/" init).1 = (none, some e)) ∧
        ((fun _ => some "fetch failed" : JWTValidator → Option Error)
            ⟨"https://auth.mozilla.auth0.com/", init.nextAddr⟩ = none →
          (NewJWTValidator (fun _ => some "fetch failed")
            "https://auth.mozilla.auth0.com/" init).1
            = (some ⟨"https://auth.mozilla.auth0.com/", init.nextAddr⟩, none)) ∧
        ((NewJWTValidator (fun _ => some "fetch failed")
            "https://auth.mozilla.auth0.com/" init).1.2.isSome
          = ((fun _ => some "fetch failed" : JWTValidator → Option Error)
            ⟨"https://auth.mozilla.auth0.com/", init.nextAddr⟩).isSome) ∧
        ((NewJWTValidator (fun _ => some "fetch failed")
            "https://auth.mozilla.auth0.com/" init).1.1.isSome
          = ((fun _ => some "fetch failed" : JWTValidator → Option Error)
            ⟨"https://auth.mozilla.auth0.com/", init.nextAddr⟩).isNone)) :=
  ⟨rfl, NewJWTValidator_propagates (fun _ => some "fetch failed")
    "https://auth.mozilla.auth0.com/" init rfl⟩

/-! ### Principal expansion -/

theorem appendPrincipal_foldl (ps : List String) (base : Principals) :
    ∃ ext, ps.foldl appendPrincipal base = base ++ ext ∧ ext.Sublist ps ∧ ext.Nodup ∧
      (∀ p ∈ ext, p ∉ base) ∧ ∀ p ∈ ps, p ∈ base ++ ext := by
  induction ps generalizing base with
  | nil => exact ⟨[], by simp⟩
  | cons p rest ih =>
    rw [List.foldl_cons]
    by_cases hp : p ∈ base
    · rcases ih base with ⟨ext, he, hs, hn, hd, hc⟩
      refine ⟨ext, ?_, hs.cons p, hn, hd, ?_⟩
      · rw [appendPrincipal, if_pos hp, he]
      · intro q hq
        rcases List.mem_cons.1 hq with rfl | hq
        · exact List.mem_append_left _ hp
        · exact hc q hq
    · rcases ih (base ++ [p]) with ⟨ext, he, hs, hn, hd, hc⟩
      refine ⟨p :: ext, ?_, hs.cons₂ p, ?_, ?_, ?_⟩
      · rw [appendPrincipal, if_neg hp, he]
        simp
      · refine List.nodup_cons.2 ⟨?_, hn⟩
        intro hmem
        exact hd p hmem (by simp)
      · intro q hq
        rcases List.mem_cons.1 hq with rfl | hq
        · exact hp
        · intro hb
          exact hd q hq (List.mem_append_left _ hb)
      · intro q hq
        rcases List.mem_cons.1 hq with rfl | hq
        · simp
        · have := hc q hq
          simpa [List.append_assoc] using this

theorem firstOccurrences_filter (f : String → Bool) (l : List String) :
    firstOccurrences (l.filter f) = (firstOccurrences l).filter f := by
  induction l with
  | nil => rfl
  | cons a rest ih =>
    by_cases ha : f a = true
    · rw [List.filter_cons_of_pos ha, firstOccurrences, firstOccurrences, ih,
        List.filter_cons_of_pos ha, List.filter_filter, List.filter_filter]
      congr 1
      apply List.filter_congr
      intro x _
      exact Bool.and_comm _ _
    · rw [List.filter_cons_of_neg ha, firstOccurrences, ih, List.filter_cons_of_neg ha,
        List.filter_filter]
      apply List.filter_congr
      intro x _
      by_cases hx : x = a
      · subst hx
        simp [ha]
      · simp [hx]

theorem appendPrincipal_foldl_eq (ps : List String) (base : Principals) :
    ps.foldl appendPrincipal base
      = base ++ firstOccurrences (ps.filter (fun p => decide (p ∉ base))) := by
  induction ps generalizing base with
  | nil => simp [firstOccurrences]
  | cons p rest ih =>
    rw [List.foldl_cons]
    by_cases hp : p ∈ base
    · rw [appendPrincipal, if_pos hp, ih, List.filter_cons_of_neg (by simpa using hp)]
    · rw [appendPrincipal, if_neg hp, ih, List.filter_cons_of_pos (by simpa using hp),
        firstOccurrences, ← firstOccurrences_filter, List.filter_filter, List.append_assoc]
      congr 2
      simp only [List.singleton_append]
      congr 2
      apply List.filter_congr
      intro x _
      simp [List.mem_append, not_or, and_comm]

/-- C7: for caller-supplied base principals and a context whose `roles` entry
is a sequence of strings, the expansion returns the base principals in their
order followed by the principals `role:<r>` in the order of the roles, each
one at the place of its first occurrence and none that is already among the
base principals. For base `[userid:bob]` and roles `[editor]` the result is
`[userid:bob, role:editor]`; for roles `[a, b, a]` it is
`[userid:bob, role:a, role:b]`. -/
theorem Expand_roles (base : Principals) (context : Context) (roles : List String)
    (h : context.get "roles" = some (.strings roles)) :
    Expand base none context
        = .ok (base ++ firstOccurrences
            ((roles.map (fun r => "role:" ++ r)).filter (fun p => decide (p ∉ base)))) ∧
      (∃ ext, Expand base none context = .ok (base ++ ext) ∧
        ext.Sublist (roles.map (fun r => "role:" ++ r)) ∧ ext.Nodup ∧
        (∀ p ∈ ext, p ∉ base) ∧ ∀ r ∈ roles, "role:" ++ r ∈ base ++ ext) ∧
      Expand ["userid:bob"] none [("roles", .strings ["editor"])]
        = .ok ["userid:bob", "role:editor"] ∧
      Expand ["userid:bob"] none [("roles", .strings ["a", "b", "a"])]
        = .ok ["userid:bob", "role:a", "role:b"] := by
  have hE : ∀ l, base ++ l = roles.foldl (fun ps r => appendPrincipal ps ("role:" ++ r)) base →
      Expand base none context = .ok (base ++ l) := by
    intro l hl
    unfold Expand
    simp only [h, List.foldl_nil]
    rw [hl]
  refine ⟨?_, ?_, rfl, rfl⟩
  · apply hE
    rw [← appendPrincipal_foldl_eq, List.foldl_map]
  · rcases appendPrincipal_foldl (roles.map (fun r => "role:" ++ r)) base with
      ⟨ext, he, hs, hn, hd, hc⟩
    refine ⟨ext, ?_, hs, hn, hd, ?_⟩
    · apply hE
      rw [← he, List.foldl_map]
    · intro r hr
      exact hc _ (List.mem_map_of_mem _ hr)

/-- Witness of `Expand_roles`: base `[userid:bob, role:c]` and roles
`[a, c, b, a]`, for which the expansion returns
`[userid:bob, role:c, role:a, role:b]`. -/
theorem Expand_roles_witness :
    Context.get [("roles", ContextValue.strings ["a", "c", "b", "a"])] "roles"
        = some (.strings ["a", "c", "b", "a"]) ∧
      Expand ["userid:bob", "role:c"] none [("roles", .strings ["a", "c", "b", "a"])]
        = .ok ["userid:bob", "role:c", "role:a", "role:b"] ∧
      (Expand ["userid:bob", "role:c"] none [("roles", .strings ["a", "c", "b", "a"])]
          = .ok (["userid:bob", "role:c"] ++ firstOccurrences
              ((["a", "c", "b", "a"].map (fun r => "role:" ++ r)).filter
                (fun p => decide (p ∉ ["userid:bob", "role:c"])))) ∧
        (∃ ext, Expand ["userid:bob", "role:c"] none
              [("roles", .strings ["a", "c", "b", "a"])]
            = .ok (["userid:bob", "role:c"] ++ ext) ∧
          ext.Sublist (["a", "c", "b", "a"].map (fun r => "role:" ++ r)) ∧ ext.Nodup ∧
          (∀ p ∈ ext, p ∉ ["userid:bob", "role:c"]) ∧
          ∀ r ∈ ["a", "c", "b", "a"], "role:" ++ r ∈ ["userid:bob", "role:c"] ++ ext) ∧
        Expand ["userid:bob"] none [("roles", .strings ["editor"])]
          = .ok ["userid:bob", "role:editor"] ∧
        Expand ["userid:bob"] none [("roles", .strings ["a", "b", "a"])]
          = .ok ["userid:bob", "role:a", "role:b"]) :=
  ⟨by decide, rfl, Expand_roles ["userid:bob", "role:c"]
    [("roles", .strings ["a", "c", "b", "a"])] ["a", "c", "b", "a"] (by decide)⟩

end Doorman

namespace Utilities

/-! ### Equations of `Yaml2JSON` and its loops -/

theorem Yaml2JSON_scalar (s : Scalar) : Yaml2JSON (.scalar s) = some (.scalar s) := by
  simp [Yaml2JSON]

theorem Yaml2JSON_mapString (m : List (String × Value)) :
    Yaml2JSON (.mapString m) = some (.mapString m) := by
  simp [Yaml2JSON]

theorem Yaml2JSON_slice (xs : List Value) :
    Yaml2JSON (.slice xs) = (Yaml2JSON.rangeSlice xs).map Value.slice := by
  simp [Yaml2JSON]

theorem Yaml2JSON_mapIface (kvs : List (Scalar × Value)) :
    Yaml2JSON (.mapIface kvs) = (Yaml2JSON.rangeMap kvs []).map Value.mapString := by
  simp [Yaml2JSON]

theorem rangeSlice_nil : Yaml2JSON.rangeSlice [] = some [] := by
  simp [Yaml2JSON.rangeSlice]

theorem rangeSlice_cons_eq_some (v : Value) (rest ys : List Value) :
    Yaml2JSON.rangeSlice (v :: rest) = some ys ↔
      ∃ v2 rest2, Yaml2JSON v = some v2 ∧ Yaml2JSON.rangeSlice rest = some rest2 ∧
        ys = v2 :: rest2 := by
  rw [Yaml2JSON.rangeSlice]
  cases h1 : Yaml2JSON v <;> cases h2 : Yaml2JSON.rangeSlice rest <;> simp [eq_comm]

theorem rangeMap_nil (m2 : List (String × Value)) : Yaml2JSON.rangeMap [] m2 = some m2 := by
  simp [Yaml2JSON.rangeMap]

theorem rangeMap_cons_eq_some (k : Scalar) (v : Value) (rest : List (Scalar × Value))
    (m2 m : List (String × Value)) :
    Yaml2JSON.rangeMap ((k, v) :: rest) m2 = some m ↔
      ∃ s v2, k = .str s ∧ Yaml2JSON v = some v2 ∧
        Yaml2JSON.rangeMap rest (mapSet m2 s v2) = some m := by
  rw [Yaml2JSON.rangeMap]
  cases k <;> cases h1 : Yaml2JSON v <;> simp [assertString]


/-! ### When `Yaml2JSON` returns -/

mutual
theorem Yaml2JSON_isSome_iff : ∀ x : Value, (Yaml2JSON x).isSome = keysAreStrings x
  | .scalar s => by simp [Yaml2JSON, keysAreStrings]
  | .mapString m => by simp [Yaml2JSON, keysAreStrings]
  | .slice xs => by
    rw [Yaml2JSON_slice, keysAreStrings, Option.isSome_map']
    exact rangeSlice_isSome_iff xs
  | .mapIface kvs => by
    rw [Yaml2JSON_mapIface, keysAreStrings, Option.isSome_map']
    exact rangeMap_isSome_iff kvs []
theorem rangeMap_isSome_iff : ∀ (kvs : List (Scalar × Value)) (m2 : List (String × Value)),
    (Yaml2JSON.rangeMap kvs m2).isSome = keysAreStrings.entries kvs
  | [], m2 => by simp [Yaml2JSON.rangeMap, keysAreStrings.entries]
  | (k, v) :: rest, m2 => by
    have h1 := Yaml2JSON_isSome_iff v
    rw [Yaml2JSON.rangeMap, keysAreStrings.entries, ← h1]
    cases k <;> cases hv : Yaml2JSON v <;>
      simp [assertString, Scalar.isStr, rangeMap_isSome_iff rest]
theorem rangeSlice_isSome_iff : ∀ xs : List Value,
    (Yaml2JSON.rangeSlice xs).isSome = keysAreStrings.all xs
  | [] => by simp [Yaml2JSON.rangeSlice, keysAreStrings.all]
  | v :: rest => by
    have h1 := Yaml2JSON_isSome_iff v
    have h2 := rangeSlice_isSome_iff rest
    rw [Yaml2JSON.rangeSlice, keysAreStrings.all, ← h1, ← h2]
    cases hv : Yaml2JSON v <;> cases hr : Yaml2JSON.rangeSlice rest <;> simp
end

/-! ### What `Yaml2JSON` returns -/

theorem noIfaceMap_fields_mapSet (m : List (String × Value)) (k : String) (v : Value)
    (hm : noIfaceMap.fields m = true) (hv : noIfaceMap v = true) :
    noIfaceMap.fields (mapSet m k v) = true := by
  induction m with
  | nil => simp [mapSet, noIfaceMap.fields, hv]
  | cons e rest ih =>
    obtain ⟨k1, v1⟩ := e
    simp only [noIfaceMap.fields, Bool.and_eq_true] at hm
    rw [mapSet]
    split
    · simp [noIfaceMap.fields, hv, hm.2]
    · simp [noIfaceMap.fields, hm.1, ih hm.2]

mutual
theorem Yaml2JSON_noIfaceMap : ∀ (x y : Value), isYAML x = true → Yaml2JSON x = some y →
    noIfaceMap y = true
  | .scalar s, y, _, h => by
    rw [Yaml2JSON_scalar] at h
    cases h
    simp [noIfaceMap]
  | .mapString m, y, hy, _ => by simp [isYAML] at hy
  | .slice xs, y, hy, h => by
    rw [Yaml2JSON_slice] at h
    rw [isYAML] at hy
    cases hr : Yaml2JSON.rangeSlice xs with
    | none => rw [hr] at h; simp at h
    | some ys =>
      rw [hr] at h
      cases h
      rw [noIfaceMap]
      exact rangeSlice_noIfaceMap xs ys hy hr
  | .mapIface kvs, y, hy, h => by
    rw [Yaml2JSON_mapIface] at h
    rw [isYAML] at hy
    cases hr : Yaml2JSON.rangeMap kvs [] with
    | none => rw [hr] at h; simp at h
    | some m =>
      rw [hr] at h
      cases h
      rw [noIfaceMap]
      exact rangeMap_noIfaceMap kvs [] m hy (by simp [noIfaceMap.fields]) hr
theorem rangeMap_noIfaceMap : ∀ (kvs : List (Scalar × Value)) (m2 m : List (String × Value)),
    isYAML.entries kvs = true → noIfaceMap.fields m2 = true →
    Yaml2JSON.rangeMap kvs m2 = some m → noIfaceMap.fields m = true
  | [], m2, m, _, hm, h => by
    rw [rangeMap_nil] at h
    cases h
    exact hm
  | (k, v) :: rest, m2, m, hy, hm, h => by
    simp only [isYAML.entries, Bool.and_eq_true] at hy
    rcases (rangeMap_cons_eq_some k v rest m2 m).1 h with ⟨s, v2, _, hv, hr⟩
    exact rangeMap_noIfaceMap rest (mapSet m2 s v2) m hy.2
      (noIfaceMap_fields_mapSet m2 s v2 hm (Yaml2JSON_noIfaceMap v v2 hy.1 hv)) hr
theorem rangeSlice_noIfaceMap : ∀ (xs ys : List Value), isYAML.all xs = true →
    Yaml2JSON.rangeSlice xs = some ys → noIfaceMap.all ys = true
  | [], ys, _, h => by
    rw [rangeSlice_nil] at h
    cases h
    simp [noIfaceMap.all]
  | v :: rest, ys, hy, h => by
    simp only [isYAML.all, Bool.and_eq_true] at hy
    rcases (rangeSlice_cons_eq_some v rest ys).1 h with ⟨v2, rest2, hv, hr, rfl⟩
    simp only [noIfaceMap.all, Bool.and_eq_true]
    exact ⟨Yaml2JSON_noIfaceMap v v2 hy.1 hv, rangeSlice_noIfaceMap rest rest2 hy.2 hr⟩
end

mutual
theorem Yaml2JSON_fixed : ∀ (x y : Value), Yaml2JSON x = some y → Yaml2JSON y = some y
  | .scalar s, y, h => by
    rw [Yaml2JSON_scalar] at h
    cases h
    exact Yaml2JSON_scalar s
  | .mapString m, y, h => by
    rw [Yaml2JSON_mapString] at h
    cases h
    exact Yaml2JSON_mapString m
  | .slice xs, y, h => by
    rw [Yaml2JSON_slice] at h
    cases hr : Yaml2JSON.rangeSlice xs with
    | none => rw [hr] at h; simp at h
    | some ys =>
      rw [hr] at h
      cases h
      rw [Yaml2JSON_slice, rangeSlice_fixed xs ys hr]
      rfl
  | .mapIface kvs, y, h => by
    rw [Yaml2JSON_mapIface] at h
    cases hr : Yaml2JSON.rangeMap kvs [] with
    | none => rw [hr] at h; simp at h
    | some m =>
      rw [hr] at h
      cases h
      exact Yaml2JSON_mapString m
theorem rangeSlice_fixed : ∀ (xs ys : List Value), Yaml2JSON.rangeSlice xs = some ys →
    Yaml2JSON.rangeSlice ys = some ys
  | [], ys, h => by
    rw [rangeSlice_nil] at h
    cases h
    exact rangeSlice_nil
  | v :: rest, ys, h => by
    rcases (rangeSlice_cons_eq_some v rest ys).1 h with ⟨v2, rest2, hv, hr, rfl⟩
    exact (rangeSlice_cons_eq_some v2 rest2 (v2 :: rest2)).2
      ⟨v2, rest2, Yaml2JSON_fixed v v2 hv, rangeSlice_fixed rest rest2 hr, rfl⟩
end


theorem rangeSlice_forall₂ (xs : List Value) :
    ∀ ys, Yaml2JSON.rangeSlice xs = some ys →
      List.Forall₂ (fun v w => Yaml2JSON v = some w) xs ys := by
  induction xs with
  | nil =>
    intro ys h
    rw [rangeSlice_nil] at h
    cases h
    exact List.Forall₂.nil
  | cons v rest ih =>
    intro ys h
    rcases (rangeSlice_cons_eq_some v rest ys).1 h with ⟨v2, rest2, hv, hr, rfl⟩
    exact List.Forall₂.cons hv (ih rest2 hr)

theorem mapSet_of_not_mem (m : List (String × Value)) (k : String) (v : Value)
    (h : k ∉ m.map Prod.fst) : mapSet m k v = m ++ [(k, v)] := by
  induction m with
  | nil => simp [mapSet]
  | cons e rest ih =>
    obtain ⟨k1, v1⟩ := e
    simp only [List.map_cons, List.mem_cons, not_or] at h
    rw [mapSet, if_neg (fun e => h.1 e.symm), ih h.2]
    rfl

theorem rangeMap_distinct (kvs : List (Scalar × Value)) :
    ∀ (m2 m : List (String × Value)), (kvs.map Prod.fst).Nodup →
      (∀ s, Scalar.str s ∈ kvs.map Prod.fst → s ∉ m2.map Prod.fst) →
      Yaml2JSON.rangeMap kvs m2 = some m →
      ∃ conv, m = m2 ++ conv ∧ List.Forall₂ entryConverted kvs conv := by
  induction kvs with
  | nil =>
    intro m2 m _ _ h
    rw [rangeMap_nil] at h
    cases h
    exact ⟨[], by simp⟩
  | cons e rest ih =>
    obtain ⟨k, v⟩ := e
    intro m2 m hn hd h
    rcases (rangeMap_cons_eq_some k v rest m2 m).1 h with ⟨s, v2, rfl, hv, hr⟩
    simp only [List.map_cons, List.nodup_cons] at hn
    have hs : s ∉ m2.map Prod.fst := hd s (by simp)
    rw [mapSet_of_not_mem m2 s v2 hs] at hr
    have hd2 : ∀ t, Scalar.str t ∈ rest.map Prod.fst → t ∉ (m2 ++ [(s, v2)]).map Prod.fst := by
      intro t ht
      simp only [List.map_append, List.map_cons, List.map_nil, List.mem_append,
        List.mem_singleton, not_or]
      refine ⟨hd t (by simp [ht]), ?_⟩
      rintro rfl
      exact hn.1 ht
    rcases ih (m2 ++ [(s, v2)]) m hn.2 hd2 hr with ⟨conv, hm, hf⟩
    refine ⟨(s, v2) :: conv, by simp [hm], List.Forall₂.cons ⟨rfl, hv⟩ hf⟩

theorem entryConverted_keys (kvs : List (Scalar × Value)) (conv : List (String × Value))
    (h : List.Forall₂ entryConverted kvs conv) :
    kvs.map Prod.fst = (conv.map Prod.fst).map Scalar.str := by
  induction h with
  | nil => rfl
  | cons hab _ ih => simp [hab.1, ih]

theorem entryConverted_mem (kvs : List (Scalar × Value)) (conv : List (String × Value))
    (h : List.Forall₂ entryConverted kvs conv) (hn : (kvs.map Prod.fst).Nodup)
    (k : String) (v2 : Value) :
    (k, v2) ∈ conv ↔ ∃ v, (Scalar.str k, v) ∈ kvs ∧ Yaml2JSON v = some v2 := by
  induction h with
  | nil => simp
  | @cons kv sv kvs1 conv1 hab hrest ih =>
    obtain ⟨k0, v0⟩ := kv
    obtain ⟨s0, w0⟩ := sv
    obtain ⟨hk, hv⟩ := hab
    simp only at hk hv
    subst hk
    simp only [List.map_cons, List.nodup_cons] at hn
    simp only [List.mem_cons, Prod.mk.injEq, Scalar.str.injEq]
    rw [ih hn.2]
    constructor
    · rintro (⟨rfl, rfl⟩ | ⟨v, hmem, hy⟩)
      · exact ⟨v0, Or.inl ⟨rfl, rfl⟩, hv⟩
      · exact ⟨v, Or.inr hmem, hy⟩
    · rintro ⟨v, (⟨rfl, rfl⟩ | hmem), hy⟩
      · left
        rw [hv] at hy
        exact ⟨rfl, (Option.some.inj hy).symm⟩
      · exact Or.inr ⟨v, hmem, hy⟩

/-! ### JSON encoding of the result -/

mutual
theorem jsonEncodable_eq : ∀ v : Value, jsonEncodable v = (noIfaceMap v && finiteFloats v)
  | .scalar s => by simp [jsonEncodable, noIfaceMap, finiteFloats]
  | .mapIface kvs => by simp [jsonEncodable, noIfaceMap]
  | .slice xs => by
    rw [jsonEncodable, noIfaceMap, finiteFloats]
    exact jsonEncodable_all_eq xs
  | .mapString kvs => by
    rw [jsonEncodable, noIfaceMap, finiteFloats]
    exact jsonEncodable_fields_eq kvs
theorem jsonEncodable_all_eq : ∀ xs : List Value,
    jsonEncodable.all xs = (noIfaceMap.all xs && finiteFloats.all xs)
  | [] => by simp [jsonEncodable.all, noIfaceMap.all, finiteFloats.all]
  | v :: rest => by
    rw [jsonEncodable.all, noIfaceMap.all, finiteFloats.all, jsonEncodable_eq v,
      jsonEncodable_all_eq rest]
    cases noIfaceMap v <;> cases finiteFloats v <;> simp
theorem jsonEncodable_fields_eq : ∀ kvs : List (String × Value),
    jsonEncodable.fields kvs = (noIfaceMap.fields kvs && finiteFloats.fields kvs)
  | [] => by simp [jsonEncodable.fields, noIfaceMap.fields, finiteFloats.fields]
  | (_, v) :: rest => by
    rw [jsonEncodable.fields, noIfaceMap.fields, finiteFloats.fields, jsonEncodable_eq v,
      jsonEncodable_fields_eq rest]
    cases noIfaceMap v <;> cases finiteFloats v <;> simp
end

theorem finiteFloats_fields_mapSet (m : List (String × Value)) (k : String) (v : Value)
    (hm : finiteFloats.fields m = true) (hv : finiteFloats v = true) :
    finiteFloats.fields (mapSet m k v) = true := by
  induction m with
  | nil => simp [mapSet, finiteFloats.fields, hv]
  | cons e rest ih =>
    obtain ⟨k1, v1⟩ := e
    simp only [finiteFloats.fields, Bool.and_eq_true] at hm
    rw [mapSet]
    split
    · simp [finiteFloats.fields, hv, hm.2]
    · simp [finiteFloats.fields, hm.1, ih hm.2]

mutual
theorem Yaml2JSON_finiteFloats : ∀ (x y : Value), finiteFloats x = true →
    Yaml2JSON x = some y → finiteFloats y = true
  | .scalar s, y, hf, h => by
    rw [Yaml2JSON_scalar] at h
    cases h
    exact hf
  | .mapString m, y, hf, h => by
    rw [Yaml2JSON_mapString] at h
    cases h
    exact hf
  | .slice xs, y, hf, h => by
    rw [Yaml2JSON_slice] at h
    rw [finiteFloats] at hf
    cases hr : Yaml2JSON.rangeSlice xs with
    | none => rw [hr] at h; simp at h
    | some ys =>
      rw [hr] at h
      cases h
      rw [finiteFloats]
      exact rangeSlice_finiteFloats xs ys hf hr
  | .mapIface kvs, y, hf, h => by
    rw [Yaml2JSON_mapIface] at h
    rw [finiteFloats] at hf
    cases hr : Yaml2JSON.rangeMap kvs [] with
    | none => rw [hr] at h; simp at h
    | some m =>
      rw [hr] at h
      cases h
      rw [finiteFloats]
      exact rangeMap_finiteFloats kvs [] m hf (by simp [finiteFloats.fields]) hr
theorem rangeMap_finiteFloats : ∀ (kvs : List (Scalar × Value)) (m2 m : List (String × Value)),
    finiteFloats.entries kvs = true → finiteFloats.fields m2 = true →
    Yaml2JSON.rangeMap kvs m2 = some m → finiteFloats.fields m = true
  | [], m2, m, _, hm, h => by
    rw [rangeMap_nil] at h
    cases h
    exact hm
  | (k, v) :: rest, m2, m, hf, hm, h => by
    simp only [finiteFloats.entries, Bool.and_eq_true] at hf
    rcases (rangeMap_cons_eq_some k v rest m2 m).1 h with ⟨s, v2, _, hv, hr⟩
    exact rangeMap_finiteFloats rest (mapSet m2 s v2) m hf.2
      (finiteFloats_fields_mapSet m2 s v2 hm (Yaml2JSON_finiteFloats v v2 hf.1 hv)) hr
theorem rangeSlice_finiteFloats : ∀ (xs ys : List Value), finiteFloats.all xs = true →
    Yaml2JSON.rangeSlice xs = some ys → finiteFloats.all ys = true
  | [], ys, _, h => by
    rw [rangeSlice_nil] at h
    cases h
    simp [finiteFloats.all]
  | v :: rest, ys, hf, h => by
    simp only [finiteFloats.all, Bool.and_eq_true] at hf
    rcases (rangeSlice_cons_eq_some v rest ys).1 h with ⟨v2, rest2, hv, hr, rfl⟩
    simp only [finiteFloats.all, Bool.and_eq_true]
    exact ⟨Yaml2JSON_finiteFloats v v2 hf.1 hv, rangeSlice_finiteFloats rest rest2 hf.2 hr⟩
end

mutual
theorem finiteFloats_of_Yaml2JSON : ∀ (x y : Value), distinctKeys x = true →
    Yaml2JSON x = some y → finiteFloats y = true → finiteFloats x = true
  | .scalar s, y, _, h, hf => by
    rw [Yaml2JSON_scalar] at h
    cases h
    exact hf
  | .mapString m, y, _, h, hf => by
    rw [Yaml2JSON_mapString] at h
    cases h
    exact hf
  | .slice xs, y, hd, h, hf => by
    rw [Yaml2JSON_slice] at h
    rw [distinctKeys] at hd
    cases hr : Yaml2JSON.rangeSlice xs with
    | none => rw [hr] at h; simp at h
    | some ys =>
      rw [hr] at h
      cases h
      rw [finiteFloats] at hf ⊢
      exact finiteFloats_of_rangeSlice xs ys hd hr hf
  | .mapIface kvs, y, hd, h, hf => by
    rw [Yaml2JSON_mapIface] at h
    simp only [distinctKeys, Bool.and_eq_true, decide_eq_true_eq] at hd
    cases hr : Yaml2JSON.rangeMap kvs [] with
    | none => rw [hr] at h; simp at h
    | some m =>
      rw [hr] at h
      cases h
      rcases rangeMap_distinct kvs [] m hd.1 (by simp) hr with ⟨conv, hm, hconv⟩
      rw [List.nil_append] at hm
      subst hm
      rw [finiteFloats] at hf
      rw [finiteFloats]
      exact finiteFloats_of_entries kvs m hd.2 hconv hf
theorem finiteFloats_of_entries : ∀ (kvs : List (Scalar × Value)) (conv : List (String × Value)),
    distinctKeys.entries kvs = true → List.Forall₂ entryConverted kvs conv →
    finiteFloats.fields conv = true → finiteFloats.entries kvs = true
  | [], _, _, _, _ => by simp [finiteFloats.entries]
  | (k, v) :: rest, [], _, h, _ => by cases h
  | (k, v) :: rest, (s, v2) :: conv, hd, h, hf => by
    simp only [distinctKeys.entries, Bool.and_eq_true] at hd
    simp only [finiteFloats.fields, Bool.and_eq_true] at hf
    cases h with
    | cons hab hrest =>
      simp only [finiteFloats.entries, Bool.and_eq_true]
      exact ⟨finiteFloats_of_Yaml2JSON v v2 hd.1 hab.2 hf.1,
        finiteFloats_of_entries rest conv hd.2 hrest hf.2⟩
theorem finiteFloats_of_rangeSlice : ∀ (xs ys : List Value), distinctKeys.all xs = true →
    Yaml2JSON.rangeSlice xs = some ys → finiteFloats.all ys = true →
    finiteFloats.all xs = true
  | [], _, _, _, _ => by simp [finiteFloats.all]
  | v :: rest, ys, hd, h, hf => by
    simp only [distinctKeys.all, Bool.and_eq_true] at hd
    rcases (rangeSlice_cons_eq_some v rest ys).1 h with ⟨v2, rest2, hv, hr, rfl⟩
    simp only [finiteFloats.all, Bool.and_eq_true] at hf ⊢
    exact ⟨finiteFloats_of_Yaml2JSON v v2 hd.1 hv hf.1,
      finiteFloats_of_rangeSlice rest rest2 hd.2 hr hf.2⟩
end

/-- C3, as stated, fails: the document `a: .inf` has string keys only, and
`Yaml2JSON` returns `{"a": +Inf}`, which `json.Marshal` refuses: the result is
not JSON-encodable. -/
theorem Yaml2JSON_infinity_not_encodable :
    isYAML infinityDocument = true ∧ keysAreStrings infinityDocument = true ∧
      Yaml2JSON infinityDocument
        = some (.mapString [("a", .scalar (.float 0x7FF0000000000000))]) ∧
      jsonEncodable (.mapString [("a", .scalar (.float 0x7FF0000000000000))]) = false :=
  ⟨by decide, by decide, rfl, by decide⟩

/-- C3, amended: for a value built from scalars, `[]interface{}` and
`map[interface{}]interface{}` whose keys are all strings, `Yaml2JSON` returns a
value in which no `map[interface{}]interface{}` remains at any depth; that
value is JSON-encodable when no floating-point scalar of the input is a NaN or
an infinity, and (the keys of a map being pairwise distinct) only then. -/
theorem Yaml2JSON_string_keyed (x : Value) (hy : isYAML x = true)
    (hk : keysAreStrings x = true) :
    ∃ y, Yaml2JSON x = some y ∧ noIfaceMap y = true ∧
      (finiteFloats x = true → jsonEncodable y = true) ∧
      (distinctKeys x = true → jsonEncodable y = true → finiteFloats x = true) := by
  have hs := Yaml2JSON_isSome_iff x
  rw [hk] at hs
  rcases Option.isSome_iff_exists.1 hs with ⟨y, hyy⟩
  have hno := Yaml2JSON_noIfaceMap x y hy hyy
  refine ⟨y, hyy, hno, ?_, ?_⟩
  · intro hf
    rw [jsonEncodable_eq, hno, Yaml2JSON_finiteFloats x y hf hyy]
    rfl
  · intro hd he
    rw [jsonEncodable_eq, hno, Bool.true_and] at he
    exact finiteFloats_of_Yaml2JSON x y hd hyy he

/-- Witness of `Yaml2JSON_string_keyed`: the document `a: [{b: 1}]`, whose
conversion is `{"a": [{"b": 1}]}`. -/
theorem Yaml2JSON_string_keyed_witness :
    isYAML sampleDocument = true ∧ keysAreStrings sampleDocument = true ∧
      Yaml2JSON sampleDocument
        = some (.mapString [("a", .slice [.mapString [("b", .scalar (.int 1))]])]) ∧
      jsonEncodable (.mapString [("a", .slice [.mapString [("b", .scalar (.int 1))]])])
        = true ∧
      ∃ y, Yaml2JSON sampleDocument = some y ∧ noIfaceMap y = true ∧
        (finiteFloats sampleDocument = true → jsonEncodable y = true) ∧
        (distinctKeys sampleDocument = true → jsonEncodable y = true →
          finiteFloats sampleDocument = true) :=
  ⟨by decide, by decide, rfl, by decide,
    Yaml2JSON_string_keyed sampleDocument (by decide) (by decide)⟩

/-- C4, as stated, fails: the document `1: a` unmarshals to a
`map[interface{}]interface{}` with the integer key `1`, and `Yaml2JSON` panics
on it. -/
theorem Yaml2JSON_panics_on_int_key :
    isYAML (.mapIface [(.int 1, .scalar (.str "a"))]) = true ∧
      Yaml2JSON (.mapIface [(.int 1, .scalar (.str "a"))]) = none :=
  ⟨by decide, rfl⟩

/-- C4, amended: `Yaml2JSON` returns a converted value exactly when every key
of every `map[interface{}]interface{}` it reaches, through sequences and such
maps, is a string. -/
theorem Yaml2JSON_returns_iff (x : Value) :
    (∃ y, Yaml2JSON x = some y) ↔ keysAreStrings x = true := by
  rw [← Yaml2JSON_isSome_iff x]
  exact Option.isSome_iff_exists.symm

/-- C10: on an input whose map keys are all strings (and, as in any Go map,
pairwise distinct), `Yaml2JSON` returns a value `y` such that: a scalar is
returned unchanged; a sequence is returned with the same length and order,
each element being the conversion of the element at its place; a map is
returned with the same key strings, each bound to the conversion of its
original value; and converting `y` again returns `y`. -/
theorem Yaml2JSON_preserves (x : Value) (hk : keysAreStrings x = true)
    (hd : distinctKeys x = true) :
    ∃ y, Yaml2JSON x = some y ∧ Yaml2JSON y = some y ∧
      (∀ s, x = .scalar s → y = .scalar s) ∧
      (∀ xs, x = .slice xs → ∃ ys, y = .slice ys ∧ ys.length = xs.length ∧
        List.Forall₂ (fun v w => Yaml2JSON v = some w) xs ys) ∧
      (∀ kvs, x = .mapIface kvs → ∃ m2, y = .mapString m2 ∧ (m2.map Prod.fst).Nodup ∧
        (∀ k, k ∈ m2.map Prod.fst ↔ Scalar.str k ∈ kvs.map Prod.fst) ∧
        ∀ k v2, (k, v2) ∈ m2 ↔ ∃ v, (Scalar.str k, v) ∈ kvs ∧ Yaml2JSON v = some v2) := by
  have hs := Yaml2JSON_isSome_iff x
  rw [hk] at hs
  rcases Option.isSome_iff_exists.1 hs with ⟨y, hy⟩
  refine ⟨y, hy, Yaml2JSON_fixed x y hy, ?_, ?_, ?_⟩
  · rintro s rfl
    rw [Yaml2JSON_scalar] at hy
    exact (Option.some.inj hy).symm
  · rintro xs rfl
    rw [Yaml2JSON_slice] at hy
    cases hr : Yaml2JSON.rangeSlice xs with
    | none => rw [hr] at hy; simp at hy
    | some ys =>
      rw [hr] at hy
      have hf := rangeSlice_forall₂ xs ys hr
      exact ⟨ys, (Option.some.inj hy).symm, hf.length_eq.symm, hf⟩
  · rintro kvs rfl
    rw [Yaml2JSON_mapIface] at hy
    simp only [distinctKeys, Bool.and_eq_true, decide_eq_true_eq] at hd
    cases hr : Yaml2JSON.rangeMap kvs [] with
    | none => rw [hr] at hy; simp at hy
    | some m =>
      rw [hr] at hy
      rcases rangeMap_distinct kvs [] m hd.1 (by simp) hr with ⟨conv, hm, hf⟩
      rw [List.nil_append] at hm
      subst hm
      have hkeys := entryConverted_keys kvs m hf
      refine ⟨m, (Option.some.inj hy).symm, ?_, ?_, entryConverted_mem kvs m hf hd.1⟩
      · rw [hkeys] at hd
        exact List.Nodup.of_map _ hd.1
      · intro k
        rw [hkeys, List.mem_map_of_injective (fun a b h => Scalar.str.inj h)]

/-- Witness of `Yaml2JSON_preserves`: the document `a: [{b: 1}]`. -/
theorem Yaml2JSON_preserves_witness :
    keysAreStrings sampleDocument = true ∧ distinctKeys sampleDocument = true ∧
      ∃ y, Yaml2JSON sampleDocument = some y ∧ Yaml2JSON y = some y ∧
        (∀ s, sampleDocument = .scalar s → y = .scalar s) ∧
        (∀ xs, sampleDocument = .slice xs → ∃ ys, y = .slice ys ∧ ys.length = xs.length ∧
          List.Forall₂ (fun v w => Yaml2JSON v = some w) xs ys) ∧
        (∀ kvs, sampleDocument = .mapIface kvs → ∃ m2, y = .mapString m2 ∧
          (m2.map Prod.fst).Nodup ∧
          (∀ k, k ∈ m2.map Prod.fst ↔ Scalar.str k ∈ kvs.map Prod.fst) ∧
          ∀ k v2, (k, v2) ∈ m2 ↔ ∃ v, (Scalar.str k, v) ∈ kvs ∧ Yaml2JSON v = some v2) :=
  ⟨by decide, by decide, Yaml2JSON_preserves sampleDocument (by decide) (by decide)⟩

end Utilities
